import Mathlib

/-!
Shallow embedding of the register subsystem of the pyuavcan application layer:
the `Value`/`ValueProxy` conversion model (`_value.py`), the storage backends
(`backend/sqlite.py`, `backend/dynamic.py`) and the multi-backend facade
(`_repository.py`, whose `Registry` twin in `_registry.py` has identical
`keys`/`get_name_at_index`/`get`/`set`/`delete` logic).

Modelling conventions:
* DSDL numeric arrays are lists of rationals; IEEE float precision is
  idealized (rationals are exact), while machine-integer casts performed by
  the generated array constructors wrap modulo 2^w as numpy dtype casts do.
* `String_1_0`/`Unstructured_1_0` payloads are byte lists (`List Nat`).
* SQLite rows are an association list; the serialize/deserialize round trip
  through the wire encoding (generated DSDL code, outside this repository)
  is modelled as the identity on `Value`.
* Dynamic-backend getters and setters are modelled as reading/writing a
  backing value per register, as they are used throughout the repository's
  doctests; a second, finer model with fallible getters/setters is used for
  the exception-wrapping claims about `dynamic.py` itself.
* Python exceptions are modelled as explicit result constructors
  (`conversionError` for `ValueConversionError`, `assertionError` for a
  failing `assert`, and so on).
-/

namespace PyReg

/-- Payload bytes of a `uavcan.primitive.String_1_0` or `Unstructured_1_0`. -/
abbrev Bytes := List Nat

/-- The numeric option tags of `uavcan.register.Value_1_0`. -/
inductive NumTag
  | bit
  | integer8
  | integer16
  | integer32
  | integer64
  | natural8
  | natural16
  | natural32
  | natural64
  | real16
  | real32
  | real64
deriving DecidableEq, Repr

/-- `uavcan.register.Value_1_0`: a tagged union holding exactly one of
empty / string / unstructured / one of the twelve numeric array options.
Numeric arrays are lists of rationals. -/
inductive Value
  | empty
  | string (b : Bytes)
  | unstructured (b : Bytes)
  | num (t : NumTag) (xs : List ℚ)
deriving DecidableEq, Repr

/-- The option names enumerated by `_get_option_name` in `_value.py`. -/
inductive OptTag
  | empty
  | string
  | unstructured
  | num (t : NumTag)
deriving DecidableEq, Repr

/-- `_get_option_name(x)`: which option of the union is populated. -/
def Value.optionTag : Value → OptTag
  | .empty => .empty
  | .string _ => .string
  | .unstructured _ => .unstructured
  | .num t _ => .num t

def Value.isEmpty : Value → Bool
  | .empty => true
  | _ => false

/-- The numpy array `get_attribute(v, opt).value` viewed as a list of
rationals: bytes for string/unstructured, the elements for numeric options. -/
def Value.asArray : Value → List ℚ
  | .empty => []
  | .string b => b.map (fun n => (n : ℚ))
  | .unstructured b => b.map (fun n => (n : ℚ))
  | .num _ xs => xs

/-- Truncation toward zero, as in a numpy float-to-int cast. -/
def truncToInt (x : ℚ) : ℤ := x.num.tdiv x.den

/-- Wraparound into the signed w-bit range, as in a numpy signed-int cast. -/
def wrapSigned (w : Nat) (i : ℤ) : ℤ := (i + 2 ^ (w - 1)) % 2 ^ w - 2 ^ (w - 1)

/-- Wraparound into the unsigned w-bit range, as in a numpy unsigned cast. -/
def wrapUnsigned (w : Nat) (i : ℤ) : ℤ := i % 2 ^ w

/-- Element cast performed by the generated DSDL array constructors
(`Bit_1_0`, `Integer8_1_0`, ..., `Real64_1_0`): booleans are the nonzero
test, machine integers wrap, floats are idealized as exact. -/
def castScalar : NumTag → ℚ → ℚ
  | .bit, x => if x = 0 then 0 else 1
  | .integer8, x => (wrapSigned 8 (truncToInt x) : ℤ)
  | .integer16, x => (wrapSigned 16 (truncToInt x) : ℤ)
  | .integer32, x => (wrapSigned 32 (truncToInt x) : ℤ)
  | .integer64, x => (wrapSigned 64 (truncToInt x) : ℤ)
  | .natural8, x => (wrapUnsigned 8 (truncToInt x) : ℤ)
  | .natural16, x => (wrapUnsigned 16 (truncToInt x) : ℤ)
  | .natural32, x => (wrapUnsigned 32 (truncToInt x) : ℤ)
  | .natural64, x => (wrapUnsigned 64 (truncToInt x) : ℤ)
  | .real16, x => x
  | .real32, x => x
  | .real64, x => x

/-- `Value(tag=Tag(xs))`: build a numeric option from a native list,
applying the constructor's element cast. -/
def mkNum (t : NumTag) (xs : List ℚ) : Value := Value.num t (xs.map (castScalar t))

/-- Python's `round()`: round half to even (banker's rounding).
Comparisons of the fractional part with one half are phrased against the
midpoint `(2 * floor x + 1) / 2` so that the definition stays kernel
reducible. -/
def roundHalfEven (x : ℚ) : ℤ :=
  let f := x.floor
  if x < mkRat (2 * f + 1) 2 then f
  else if mkRat (2 * f + 1) 2 < x then f + 1
  else if f % 2 = 0 then f else f + 1

/-- Outcome of `_do_convert` / `ValueProxy.assign`:
`ok` is a returned value, `conversionError` is the `None` return that
`assign` turns into `ValueConversionError`, and `assertionError` is the
`assert False` fall-through at the end of `_do_convert` (an uncaught
`AssertionError`, not a `ValueError`). -/
inductive ConvResult
  | ok (v : Value)
  | conversionError
  | assertionError
deriving DecidableEq, Repr

/-- The tail of `_do_convert` reached by every pair that is neither
empty-sided nor a string/unstructured pairing: the dimensionality guard,
the same-option shortcut, and the destination-family dispatch whose
non-numeric fall-through is the `assert False` of the source. -/
def numericTail (t s : Value) : ConvResult :=
  let valT := t.asArray
  let valS := s.asArray
  if valT.length ≠ valS.length then .conversionError
  else if t.optionTag = s.optionTag then .ok s
  else
    match t with
    | .num .bit _ => .ok (mkNum .bit valS)
    | .num .real16 _ => .ok (mkNum .real16 valS)
    | .num .real32 _ => .ok (mkNum .real32 valS)
    | .num .real64 _ => .ok (mkNum .real64 valS)
    | .num tag _ => .ok (mkNum tag (valS.map (fun x => ((roundHalfEven x : ℤ) : ℚ))))
    | _ => .assertionError

/-- `_do_convert(to, s)` from `_value.py`, branch for branch: the empty
checks, the four string/unstructured pairings, then the generic array
path (`numericTail`). -/
def _do_convert (t s : Value) : ConvResult :=
  match t, s with
  | .empty, _ => .ok .empty
  | _, .empty => .ok t
  | .string _, .string _ => .ok s
  | .unstructured _, .unstructured _ => .ok s
  | .string _, .unstructured b => .ok (.string b)
  | .unstructured _, .string b => .ok (.unstructured b)
  | _, _ => numericTail t s

/-- `ValueProxy.assign` on an already-strict source `Value`: run
`_do_convert`, raise `ValueConversionError` on `None`, and check the
`assert _get_option_name(res) == opt_to` guard. -/
def ValueProxy.assign (dest source : Value) : ConvResult :=
  match _do_convert dest source with
  | .ok res => if res.optionTag = dest.optionTag then .ok res else .assertionError
  | r => r

/-- A native Python scalar appearing in a `RelaxedValue` sequence. -/
inductive PyScalar
  | bool (b : Bool)
  | int (i : ℤ)
  | float (q : ℚ)
deriving DecidableEq, Repr

def PyScalar.isBool : PyScalar → Bool
  | .bool _ => true
  | _ => false

def PyScalar.isFloat : PyScalar → Bool
  | .float _ => true
  | _ => false

/-- Numeric value of a native scalar (True is 1, False is 0). -/
def PyScalar.toQ : PyScalar → ℚ
  | .bool b => if b then 1 else 0
  | .int i => (i : ℚ)
  | .float q => q

/-- A `RelaxedValue` input to `_strictify`: a strict `Value`, a native
scalar, a string, bytes, or a sequence of native scalars. -/
inductive Relaxed
  | value (v : Value)
  | scalar (s : PyScalar)
  | str (b : Bytes)
  | bytes (b : Bytes)
  | seq (xs : List PyScalar)
deriving DecidableEq, Repr

/-- The sequence arm of `_strictify` (the code after the isinstance chain). -/
def strictifySeq (xs : List PyScalar) : Value :=
  if xs.isEmpty then Value.empty
  else if xs.all PyScalar.isBool then mkNum .bit (xs.map PyScalar.toQ)
  else if xs.all (fun x => !x.isFloat) then
    if xs.all (fun x => decide (0 ≤ x.toQ)) then mkNum .natural64 (xs.map PyScalar.toQ)
    else mkNum .integer64 (xs.map PyScalar.toQ)
  else mkNum .real64 (xs.map PyScalar.toQ)

/-- `_strictify(s)` from `_value.py`: a `Value` (or `ValueProxy`) passes
through, a bare scalar becomes the singleton sequence `[s]`, `str` becomes
the string option, `bytes` becomes unstructured, and sequences dispatch on
their element types. -/
def _strictify : Relaxed → Value
  | .value v => v
  | .scalar s => strictifySeq [s]
  | .str b => Value.string b
  | .bytes b => Value.unstructured b
  | .seq xs => strictifySeq xs

/-- A register name: a Python string modelled as its list of code points. -/
abbrev Name := List Nat

/-- Python string comparison: lexicographic on code points. -/
def nameLe : Name → Name → Bool
  | [], _ => true
  | _ :: _, [] => false
  | a :: as, b :: bs => if a < b then true else if b < a then false else nameLe as bs

/-- `nameLe` as a relation, for use with the library sort. -/
def nameLeP : Name → Name → Prop := fun a b => nameLe a b = true

instance : DecidableRel nameLeP := fun a b => instDecidableEqBool (nameLe a b) true

/-- Lexicographically sorted key enumeration (the SQL `order by name` and
the always-sorted dict of the dynamic backend). -/
def sortNames (l : List Name) : List Name := List.insertionSort nameLeP l

theorem nameLe_total (a b : Name) : nameLe a b = true ∨ nameLe b a = true := by
  induction a generalizing b with
  | nil => left; rfl
  | cons x as ih =>
    cases b with
    | nil => right; rfl
    | cons y bs =>
      by_cases hxy : x < y
      · left; simp [nameLe, hxy]
      · by_cases hyx : y < x
        · right; simp [nameLe, hyx]
        · have hx : x = y := Nat.le_antisymm (Nat.not_lt.mp hyx) (Nat.not_lt.mp hxy)
          subst hx
          rcases ih bs with h | h
          · left; simpa [nameLe] using h
          · right; simpa [nameLe] using h

theorem nameLe_trans {a b c : Name} (hab : nameLe a b = true) (hbc : nameLe b c = true) :
    nameLe a c = true := by
  induction a generalizing b c with
  | nil => rfl
  | cons x as ih =>
    cases b with
    | nil => simp [nameLe] at hab
    | cons y bs =>
      cases c with
      | nil => simp [nameLe] at hbc
      | cons z cs =>
        simp only [nameLe] at hab hbc ⊢
        by_cases hxy : x < y
        · by_cases hyz : y < z
          · simp [Nat.lt_trans hxy hyz]
          · by_cases hzy : z < y
            · simp only [hyz, if_false, hzy, if_true] at hbc
              exact absurd hbc (by simp)
            · have : y = z := Nat.le_antisymm (Nat.not_lt.mp hzy) (Nat.not_lt.mp hyz)
              subst this
              simp [hxy]
        · by_cases hyx : y < x
          · simp only [hxy, if_false, hyx, if_true] at hab
            exact absurd hab (by simp)
          · have hx : x = y := Nat.le_antisymm (Nat.not_lt.mp hyx) (Nat.not_lt.mp hxy)
            subst hx
            simp only [Nat.lt_irrefl, if_false] at hab
            by_cases hyz : x < z
            · simp [hyz]
            · by_cases hzy : z < x
              · simp only [hyz, if_false, hzy, if_true] at hbc
                exact absurd hbc (by simp)
              · have : x = z := Nat.le_antisymm (Nat.not_lt.mp hzy) (Nat.not_lt.mp hyz)
                subst this
                simp only [Nat.lt_irrefl, if_false] at hab hbc ⊢
                exact ih hab hbc

instance : IsTotal Name nameLeP := ⟨nameLe_total⟩

instance : IsTrans Name nameLeP := ⟨fun _ _ _ => nameLe_trans⟩

/-- Python dict access `d[name]` on an association list. -/
def lookupName : List (Name × α) → Name → Option α
  | [], _ => none
  | (k, w) :: rest, n => if k = n then some w else lookupName rest n

/-- Create-or-overwrite on an association list (SQL `insert or replace`,
and the dynamic backend's setter writing its backing variable). -/
def setAssoc : List (Name × α) → Name → α → List (Name × α)
  | [], n, v => [(n, v)]
  | (k, w) :: rest, n, v => if k = n then (n, v) :: rest else (k, w) :: setAssoc rest n v

/-- Deletion of a set of names from an association list. -/
def delAssoc (l : List (Name × α)) (ns : List Name) : List (Name × α) :=
  l.filter (fun p => !decide (p.1 ∈ ns))

/-- Split a glob character-class body at the first closing bracket
(code 93). `none` when there is no closing bracket. -/
def findClose : List Nat → Option (List Nat × List Nat)
  | [] => none
  | c :: rest =>
    if c = 93 then some ([], rest)
    else (findClose rest).map (fun q => (c :: q.1, q.2))

/-- Class body extraction where a bracket right after the opening (or after
the bang) is a literal member. -/
def parseClassCore : List Nat → Option (List Nat × List Nat)
  | 93 :: rest => (findClose rest).map (fun q => (93 :: q.1, q.2))
  | p => findClose p

/-- Parse `[...]` or `[!...]` after the opening bracket: negation flag,
class body, rest of the pattern. -/
def parseClass : List Nat → Option (Bool × List Nat × List Nat)
  | 33 :: rest => (parseClassCore rest).map (fun q => (true, q.1, q.2))
  | p => (parseClassCore p).map (fun q => (false, q.1, q.2))

/-- Membership of a character in a class body, with `a-b` ranges; a
leading or trailing dash (code 45) is a literal. -/
def classMatches (c : Nat) : List Nat → Bool
  | [] => false
  | [a] => a == c
  | [a, 45] => a == c || c == 45
  | a :: 45 :: b :: rest => (decide (a ≤ c) && decide (c ≤ b)) || classMatches c rest
  | a :: rest => a == c || classMatches c rest

/-- Fuel-driven glob matching: star (42) matches any run, question mark
(63) any one character, bracket (91) a character class; every other
pattern character matches itself. A star consumes either nothing or one
character, so `name.length + pattern.length + 1` fuel always suffices. -/
def globMatchF : Nat → List Nat → List Nat → Bool
  | 0, _, _ => false
  | _ + 1, s, [] => s.isEmpty
  | fuel + 1, s, 42 :: ps =>
    globMatchF fuel s ps ||
      match s with
      | [] => false
      | _ :: s2 => globMatchF fuel s2 (42 :: ps)
  | fuel + 1, s, 63 :: ps =>
    match s with
    | [] => false
    | _ :: s2 => globMatchF fuel s2 ps
  | fuel + 1, s, 91 :: ps =>
    match parseClass ps with
    | none =>
      match s with
      | [] => false
      | c :: s2 => (c == 91) && globMatchF fuel s2 ps
    | some (neg, cls, rest) =>
      match s with
      | [] => false
      | c :: s2 => (classMatches c cls != neg) && globMatchF fuel s2 rest
  | fuel + 1, s, c :: ps =>
    match s with
    | [] => false
    | d :: s2 => (d == c) && globMatchF fuel s2 ps

/-- Modelled from the spec: the Python standard library matcher
`fnmatch.fnmatchcase` used by `Repository.delete` is not part of this
repository; the spec describes it as a case-sensitive glob with star,
question mark and bracketed classes (bang negation, dash ranges).
Characters are compared exactly by code point, hence case-sensitively. -/
def fnmatchcase (n pat : Name) : Bool :=
  globMatchF (n.length + pat.length + 1) n pat

/-- A backend row / register entry: pair of a value and a mutability flag
(`backend/__init__.py`). -/
structure Entry where
  value : Value
  mutable : Bool
deriving DecidableEq, Repr

/-- One register of the dynamic backend, with its getter modelled as
reading a backing value and its optional setter as writing it. -/
structure DynReg where
  value : Value
  hasSetter : Bool
deriving DecidableEq, Repr

/-- The two backend implementations. The SQLite backend stores rows in a
table keyed by unique name (the `persistent` flag reflects whether the
location is the in-memory marker); the dynamic backend stores getter and
setter bindings keyed by name. -/
inductive Backend
  | sqlite (persistent : Bool) (rows : List (Name × Entry))
  | dynamic (regs : List (Name × DynReg))
deriving DecidableEq, Repr

/-- `Backend.persistent`: location-derived for SQLite, always false for
the dynamic backend. -/
def Backend.persistent : Backend → Bool
  | .sqlite p _ => p
  | .dynamic _ => false

/-- `Backend.get`: SQLite row lookup, or invoke the getter and report
`mutable = (setter present)` (`dynamic.py`, `sqlite.py`). -/
def Backend.get : Backend → Name → Option Entry
  | .sqlite _ rows, n => lookupName rows n
  | .dynamic regs, n => (lookupName regs n).map (fun r => ⟨r.value, r.hasSetter⟩)

/-- `Backend.set`: SQLite create-or-overwrite always marking the row
mutable; the dynamic backend invokes the setter when present and
otherwise does nothing. -/
def Backend.set : Backend → Name → Value → Backend
  | .sqlite p rows, n, v => .sqlite p (setAssoc rows n ⟨v, true⟩)
  | .dynamic regs, n, v =>
    match lookupName regs n with
    | some r => if r.hasSetter then .dynamic (setAssoc regs n ⟨v, true⟩) else .dynamic regs
    | none => .dynamic regs

/-- The raw name set of a backend, in storage order. -/
def Backend.names : Backend → List Name
  | .sqlite _ rows => rows.map Prod.fst
  | .dynamic regs => regs.map Prod.fst

/-- `Backend.keys`: lexicographically sorted name enumeration. -/
def Backend.keys (b : Backend) : List Name := sortNames b.names

/-- `Backend.delete`: remove the named rows, ignoring unknown names. -/
def Backend.delete : Backend → List Name → Backend
  | .sqlite p rows, ns => .sqlite p (delAssoc rows ns)
  | .dynamic regs, ns => .dynamic (delAssoc regs ns)

/-- The repository facade: an ordered chain of backends
(`_repository.py`; the `Registry` of `_registry.py` holds the same chain
with identical lookup logic). -/
structure Repository where
  backends : List Backend
deriving DecidableEq, Repr

/-- `Repository.keys`: concatenation, in bind order, of each backend's
own sorted key list (no global re-sort). -/
def Repository.keys (r : Repository) : List Name :=
  (r.backends.map Backend.keys).flatten

/-- Python `lst[i]` for an `int` index: nonnegative indices count from the
front, negative indices from the back, everything else raises
`IndexError` (modelled as `none`, which `get_name_at_index` returns after
catching `LookupError`). -/
def pyGetItem (l : List Name) (i : ℤ) : Option Name :=
  if 0 ≤ i then l.get? i.toNat
  else if 0 ≤ (l.length : ℤ) + i then l.get? ((l.length : ℤ) + i).toNat
  else none

/-- `Repository.get_name_at_index`: `self.keys()[index]` with
`LookupError` mapped to `None`. -/
def Repository.get_name_at_index (r : Repository) (i : ℤ) : Option Name :=
  pyGetItem r.keys i

/-- First backend in bind order owning the name, with its entry. -/
def getFirst : List Backend → Name → Option Entry
  | [], _ => none
  | b :: bs, n =>
    match b.get n with
    | some e => some e
    | none => getFirst bs n

/-- `Repository.get`: entry value of the first owning backend, `None` if
absent everywhere. -/
def Repository.get (r : Repository) (n : Name) : Option Value :=
  (getFirst r.backends n).map Entry.value

/-- Outcome of `Repository.set`. -/
inductive SetResult
  | ok (backends : List Backend)
  | missingRegisterError
  | conversionError
  | assertionError
deriving DecidableEq, Repr

/-- The backend loop of `Repository.set`: find the first owning backend,
convert via a proxy of its current value, write back only on success. -/
def setFirst : List Backend → Name → Value → SetResult
  | [], _, _ => .missingRegisterError
  | b :: bs, n, v =>
    match b.get n with
    | some e =>
      match ValueProxy.assign e.value v with
      | .ok c => .ok (b.set n c :: bs)
      | .conversionError => .conversionError
      | .assertionError => .assertionError
    | none =>
      match setFirst bs n v with
      | .ok bs2 => .ok (b :: bs2)
      | w => w

/-- `Repository.set` (identical to `Registry.set`). -/
def Repository.set (r : Repository) (n : Name) (v : Value) : SetResult :=
  setFirst r.backends n v

/-- The `(value, mutable, persistent)` triple of an `Access` response. -/
structure AccessOut where
  value : Value
  mutable : Bool
  persistent : Bool
deriving DecidableEq, Repr

/-- Outcome of `Repository.access`: the updated chain and response, or an
uncaught exception (`access` catches only `ValueError`; the
`assert False` fall-through of `_do_convert` escapes, and reading back a
vanished entry after a write would be an `AttributeError`). -/
inductive AccessResult
  | ok (backends : List Backend) (out : AccessOut)
  | assertionError
  | attributeError
deriving DecidableEq, Repr

/-- The backend loop of `Repository.access`: on the first owning backend,
attempt the write only when the entry is mutable and the request value is
not empty; a `ValueConversionError` is swallowed (pure read), a
successful conversion is written and confirmed by a re-read. -/
def accessFirst : List Backend → Name → Value → AccessResult
  | [], _, _ => .ok [] ⟨Value.empty, false, false⟩
  | b :: bs, n, v =>
    match b.get n with
    | none =>
      match accessFirst bs n v with
      | .ok bs2 out => .ok (b :: bs2) out
      | w => w
    | some e =>
      if e.mutable && !v.isEmpty then
        match ValueProxy.assign e.value v with
        | .conversionError => .ok (b :: bs) ⟨e.value, e.mutable, b.persistent⟩
        | .assertionError => .assertionError
        | .ok c =>
          match (b.set n c).get n with
          | some e2 => .ok (b.set n c :: bs) ⟨e2.value, e2.mutable, b.persistent⟩
          | none => .attributeError
      else .ok (b :: bs) ⟨e.value, e.mutable, b.persistent⟩

/-- `Repository.access`: the `uavcan.register.Access` transaction. -/
def Repository.access (r : Repository) (n : Name) (v : Value) : AccessResult :=
  accessFirst r.backends n v

/-- `Repository.delete`: glob-match every backend's key set independently
and delete the matches from every backend. -/
def Repository.delete (r : Repository) (w : Name) : Repository :=
  ⟨r.backends.map (fun b => b.delete (b.keys.filter (fun n => fnmatchcase n w)))⟩

/-- Payload of an arbitrary exception raised by caller-supplied code. -/
abbrev Exc := Nat

/-- One register of the dynamic backend with the caller-supplied code made
explicit: invoking the getter either returns a `Value` or raises, and the
optional setter may raise on any given value. -/
structure DynRegF where
  getter : Except Exc Value
  setter : Option (Value → Except Exc Unit)

/-- An exception leaving `DynamicBackend.get`/`set`: either a
`BackendError` wrapping the original exception payload, or a raw
exception that escaped unwrapped. -/
inductive PyErr
  | backendError (e : Exc)
  | raw (e : Exc)
deriving DecidableEq, Repr

/-- `DynamicBackend.get` (`backend/dynamic.py`): a missing name is
`None`; an exception inside the getter is caught and re-raised wrapped in
`BackendError`; otherwise the entry reports `mutable = (setter present)`. -/
def DynamicBackend.get (regs : List (Name × DynRegF)) (n : Name) : Except PyErr (Option Entry) :=
  match lookupName regs n with
  | none => .ok none
  | some r =>
    match r.getter with
    | .error ex => .error (.backendError ex)
    | .ok v => .ok (some ⟨v, r.setter.isSome⟩)

/-- `DynamicBackend.set` (`backend/dynamic.py`): a missing name or a
missing setter is a silent no-op; the `setter(value)` call itself is not
inside any try block, so an exception it raises propagates raw. -/
def DynamicBackend.set (regs : List (Name × DynRegF)) (n : Name) (v : Value) :
    Except PyErr Unit :=
  match lookupName regs n with
  | none => .ok ()
  | some r =>
    match r.setter with
    | none => .ok ()
    | some f =>
      match f v with
      | .error ex => .error (.raw ex)
      | .ok _ => .ok ()

/-- A heap of Python `Value` objects; an address is an index into it.
Used to state object-identity (frame) properties of `ValueProxy`. -/
abbrev Heap := List Value

abbrev Addr := Nat

/-- Dereference an address. -/
def Heap.read (h : Heap) (a : Addr) : Option Value := h.get? a

/-- Allocation of a fresh object. -/
def Heap.alloc (h : Heap) (v : Value) : Heap × Addr := (h ++ [v], h.length)

/-- A `ValueProxy` object: its `_value` attribute is a reference to a
heap cell. -/
structure ProxyObj where
  valueAddr : Addr
deriving DecidableEq, Repr

/-- `ValueProxy.__init__(msg)`: `self._value = copy(msg)` allocates a
copy of the argument object; the argument's own cell is not written. -/
def ValueProxy.init (h : Heap) (msg : Addr) : Heap × ProxyObj :=
  let v := (h.read msg).getD Value.empty
  let q := h.alloc v
  (q.1, ⟨q.2⟩)

/-- `ValueProxy.assign` at the object level: on success the converted
result is a newly built object and `self._value` is rebound to it; on
failure nothing changes. No existing heap cell is ever written. -/
def ValueProxy.assignObj (h : Heap) (p : ProxyObj) (source : Value) :
    Heap × ProxyObj × ConvResult :=
  let dest := (h.read p.valueAddr).getD Value.empty
  match ValueProxy.assign dest source with
  | .ok res =>
    let q := h.alloc res
    (q.1, ⟨q.2⟩, .ok res)
  | w => (h, p, w)

/-- Run a sequence of `assign` calls against a proxy. -/
def ValueProxy.assignAll (h : Heap) (p : ProxyObj) : List Value → Heap × ProxyObj
  | [] => (h, p)
  | v :: vs =>
    let q := ValueProxy.assignObj h p v
    ValueProxy.assignAll q.1 q.2.1 vs

/-- The element-wise conversion rule of the numeric branch of
`_do_convert`, written per destination family: a bit element is the
nonzero test, a real element is the (idealized) float cast, and an
integer/natural element is round-half-to-even followed by the machine
cast. -/
def specConvert (t : NumTag) (ys : List ℚ) : List ℚ :=
  match t with
  | .bit => ys.map (fun y => if y = 0 then 0 else 1)
  | .real16 => ys
  | .real32 => ys
  | .real64 => ys
  | .integer8 => ys.map (fun y => castScalar .integer8 ((roundHalfEven y : ℤ) : ℚ))
  | .integer16 => ys.map (fun y => castScalar .integer16 ((roundHalfEven y : ℤ) : ℚ))
  | .integer32 => ys.map (fun y => castScalar .integer32 ((roundHalfEven y : ℤ) : ℚ))
  | .integer64 => ys.map (fun y => castScalar .integer64 ((roundHalfEven y : ℤ) : ℚ))
  | .natural8 => ys.map (fun y => castScalar .natural8 ((roundHalfEven y : ℤ) : ℚ))
  | .natural16 => ys.map (fun y => castScalar .natural16 ((roundHalfEven y : ℤ) : ℚ))
  | .natural32 => ys.map (fun y => castScalar .natural32 ((roundHalfEven y : ℤ) : ℚ))
  | .natural64 => ys.map (fun y => castScalar .natural64 ((roundHalfEven y : ℤ) : ℚ))

/-- Well-formedness of one array element for a numeric family: bit
elements are 0 or 1, integer/natural elements are integers within the
family's machine range, real elements are unconstrained. Values produced
by the generated DSDL constructors satisfy this. -/
def scalarWF (t : NumTag) (x : ℚ) : Bool :=
  match t with
  | .bit => decide (x = 0) || decide (x = 1)
  | .integer8 => x.den == 1 && decide (-(2 ^ 7) ≤ x.num) && decide (x.num < 2 ^ 7)
  | .integer16 => x.den == 1 && decide (-(2 ^ 15) ≤ x.num) && decide (x.num < 2 ^ 15)
  | .integer32 => x.den == 1 && decide (-(2 ^ 31) ≤ x.num) && decide (x.num < 2 ^ 31)
  | .integer64 => x.den == 1 && decide (-(2 ^ 63) ≤ x.num) && decide (x.num < 2 ^ 63)
  | .natural8 => x.den == 1 && decide (0 ≤ x.num) && decide (x.num < 2 ^ 8)
  | .natural16 => x.den == 1 && decide (0 ≤ x.num) && decide (x.num < 2 ^ 16)
  | .natural32 => x.den == 1 && decide (0 ≤ x.num) && decide (x.num < 2 ^ 32)
  | .natural64 => x.den == 1 && decide (0 ≤ x.num) && decide (x.num < 2 ^ 64)
  | .real16 => true
  | .real32 => true
  | .real64 => true

/-! ### Arithmetic helper lemmas -/

theorem ratFloor_eq (q : ℚ) : q.floor = ⌊q⌋ :=
  le_antisymm (Int.le_floor.mpr (Rat.le_floor.mp le_rfl)) (Rat.le_floor.mpr (Int.floor_le q))

theorem truncToInt_intCast (i : ℤ) : truncToInt ((i : ℤ) : ℚ) = i := by
  simp [truncToInt, Rat.num_intCast, Rat.den_intCast, Int.tdiv_one]

theorem truncToInt_den_one {x : ℚ} (h : x.den = 1) : truncToInt x = x.num := by
  simp [truncToInt, h, Int.tdiv_one]

theorem roundHalfEven_intCast (i : ℤ) : roundHalfEven ((i : ℤ) : ℚ) = i := by
  have hf : ((i : ℚ)).floor = i := by rw [ratFloor_eq, Int.floor_intCast]
  have hlt : ((i : ℚ)) < mkRat (2 * i + 1) 2 := by
    rw [Rat.mkRat_eq_div, lt_div_iff₀ (by norm_num : (0 : ℚ) < ((2 : ℕ) : ℚ))]
    push_cast
    linarith
  simp [roundHalfEven, hf, hlt]

theorem roundHalfEven_den_one {x : ℚ} (h : x.den = 1) : roundHalfEven x = x.num := by
  have hx : ((x.num : ℤ) : ℚ) = x := (Rat.den_eq_one_iff x).mp h
  calc roundHalfEven x = roundHalfEven ((x.num : ℤ) : ℚ) := by rw [hx]
    _ = x.num := roundHalfEven_intCast x.num

theorem wrapSigned_eq_self {w : Nat} (hw : 0 < w) {i : ℤ}
    (h1 : -(2 ^ (w - 1)) ≤ i) (h2 : i < 2 ^ (w - 1)) : wrapSigned w i = i := by
  have hsum : (2 : ℤ) ^ w = 2 ^ (w - 1) + 2 ^ (w - 1) := by
    have hww : w - 1 + 1 = w := Nat.succ_pred_eq_of_pos hw
    conv_lhs => rw [← hww]
    rw [pow_succ]
    ring
  unfold wrapSigned
  rw [Int.emod_eq_of_lt (by linarith) (by linarith)]
  ring

theorem wrapUnsigned_eq_self {w : Nat} {i : ℤ} (h1 : 0 ≤ i) (h2 : i < 2 ^ w) :
    wrapUnsigned w i = i := Int.emod_eq_of_lt h1 h2

theorem truncWrapSigned_wf {w : Nat} (hw : 0 < w) {y : ℚ} (hden : y.den = 1)
    (hlo : -(2 ^ (w - 1)) ≤ y.num) (hhi : y.num < 2 ^ (w - 1)) :
    ((wrapSigned w (truncToInt y) : ℤ) : ℚ) = y := by
  rw [truncToInt_den_one hden, wrapSigned_eq_self hw hlo hhi]
  exact (Rat.den_eq_one_iff y).mp hden

theorem truncWrapUnsigned_wf {w : Nat} {y : ℚ} (hden : y.den = 1)
    (hlo : 0 ≤ y.num) (hhi : y.num < 2 ^ w) :
    ((wrapUnsigned w (truncToInt y) : ℤ) : ℚ) = y := by
  rw [truncToInt_den_one hden, wrapUnsigned_eq_self hlo hhi]
  exact (Rat.den_eq_one_iff y).mp hden

theorem castScalar_wf {t : NumTag} {x : ℚ} (h : scalarWF t x = true) : castScalar t x = x := by
  cases t
  case real16 => rfl
  case real32 => rfl
  case real64 => rfl
  case bit =>
    simp only [scalarWF, Bool.or_eq_true, decide_eq_true_iff] at h
    rcases h with h | h
    · simp [castScalar, h]
    · simp [castScalar, h]
  all_goals
    simp only [scalarWF, Bool.and_eq_true, beq_iff_eq, decide_eq_true_iff] at h
  all_goals
    obtain ⟨⟨hden, hlo⟩, hhi⟩ := h
  case integer8 => exact truncWrapSigned_wf (by norm_num) hden hlo hhi
  case integer16 => exact truncWrapSigned_wf (by norm_num) hden hlo hhi
  case integer32 => exact truncWrapSigned_wf (by norm_num) hden hlo hhi
  case integer64 => exact truncWrapSigned_wf (by norm_num) hden hlo hhi
  case natural8 => exact truncWrapUnsigned_wf hden hlo hhi
  case natural16 => exact truncWrapUnsigned_wf hden hlo hhi
  case natural32 => exact truncWrapUnsigned_wf hden hlo hhi
  case natural64 => exact truncWrapUnsigned_wf hden hlo hhi

theorem specConvert_length (t : NumTag) (ys : List ℚ) :
    (specConvert t ys).length = ys.length := by
  cases t <;> simp [specConvert]

theorem specConvert_wf {t : NumTag} {ys : List ℚ}
    (h : ∀ y ∈ ys, scalarWF t y = true) : specConvert t ys = ys := by
  cases t
  case real16 => rfl
  case real32 => rfl
  case real64 => rfl
  case bit =>
    refine (List.map_congr_left fun y hy => ?_).trans (List.map_id ys)
    have hwf := h y hy
    simp only [scalarWF, Bool.or_eq_true, decide_eq_true_iff] at hwf
    rcases hwf with h0 | h1
    · simp [h0]
    · simp [h1]
  all_goals
    refine (List.map_congr_left fun y hy => ?_).trans (List.map_id ys)
  all_goals
    have hwf := h y hy
  all_goals
    simp only [scalarWF, Bool.and_eq_true, beq_iff_eq, decide_eq_true_iff] at hwf
  all_goals
    obtain ⟨⟨hden, hlo⟩, hhi⟩ := hwf
  all_goals
    rw [roundHalfEven_den_one hden]
  all_goals
    rw [castScalar_wf (by
      simp only [scalarWF, Bool.and_eq_true, beq_iff_eq, decide_eq_true_iff,
        Rat.num_intCast, Rat.den_intCast]
      exact ⟨⟨trivial, hlo⟩, hhi⟩)]
  all_goals
    exact (Rat.den_eq_one_iff _).mp hden

/-! ### Unfolding lemmas for the conversion engine -/

theorem Value.isEmpty_iff {v : Value} : v.isEmpty = true ↔ v = .empty := by
  cases v <;> simp [Value.isEmpty]

theorem asArray_num (t : NumTag) (xs : List ℚ) : (Value.num t xs).asArray = xs := rfl

theorem numericTail_num (t : NumTag) (xs : List ℚ) (s : Value) :
    numericTail (.num t xs) s =
      if xs.length ≠ s.asArray.length then ConvResult.conversionError
      else if (Value.num t xs).optionTag = s.optionTag then ConvResult.ok s
      else ConvResult.ok (.num t (specConvert t s.asArray)) := by
  simp only [numericTail, asArray_num]
  by_cases hlen : xs.length ≠ s.asArray.length
  · rw [if_pos hlen, if_pos hlen]
  · rw [if_neg hlen, if_neg hlen]
    by_cases htag : (Value.num t xs).optionTag = s.optionTag
    · rw [if_pos htag, if_pos htag]
    · rw [if_neg htag, if_neg htag]
      cases t <;> simp only [mkNum, specConvert, List.map_map] <;>
        first
          | exact congrArg ConvResult.ok (congrArg _ (List.map_congr_left fun y hy => rfl))
          | exact congrArg ConvResult.ok
              (congrArg _ ((List.map_congr_left fun y hy => rfl).trans (List.map_id _)))

theorem do_convert_num (t : NumTag) (xs : List ℚ) (s : Value) (hs : s.isEmpty = false) :
    _do_convert (.num t xs) s =
      if xs.length ≠ s.asArray.length then ConvResult.conversionError
      else if (Value.num t xs).optionTag = s.optionTag then ConvResult.ok s
      else ConvResult.ok (.num t (specConvert t s.asArray)) := by
  cases s with
  | empty => simp [Value.isEmpty] at hs
  | string b => exact numericTail_num t xs (Value.string b)
  | unstructured b => exact numericTail_num t xs (Value.unstructured b)
  | num ts ys => exact numericTail_num t xs (Value.num ts ys)

theorem assign_num_num (t s : NumTag) (xs ys : List ℚ) :
    ValueProxy.assign (Value.num t xs) (Value.num s ys) =
      if xs.length ≠ ys.length then ConvResult.conversionError
      else if t = s then ConvResult.ok (Value.num s ys)
      else ConvResult.ok (Value.num t (specConvert t ys)) := by
  have hconv := do_convert_num t xs (Value.num s ys) rfl
  simp only [Value.asArray, Value.optionTag, OptTag.num.injEq] at hconv
  simp only [ValueProxy.assign, hconv]
  by_cases hlen : xs.length ≠ ys.length
  · simp [hlen]
  · simp only [hlen, if_false]
    by_cases hts : t = s
    · subst hts
      simp [Value.optionTag]
    · simp [hts, Value.optionTag]

theorem assign_ok_optionTag {d s v : Value} (h : ValueProxy.assign d s = ConvResult.ok v) :
    v.optionTag = d.optionTag := by
  unfold ValueProxy.assign at h
  cases hc : _do_convert d s with
  | ok res =>
    rw [hc] at h
    by_cases ht : res.optionTag = d.optionTag
    · simp only [ht, if_true] at h
      cases h
      exact ht
    · simp [ht] at h
  | conversionError =>
    rw [hc] at h
    cases h
  | assertionError =>
    rw [hc] at h
    cases h

theorem assign_empty {d s : Value} (h : d.isEmpty = true ∨ s.isEmpty = true) :
    ValueProxy.assign d s = ConvResult.ok d := by
  have hc : _do_convert d s = .ok d := by
    rcases h with h | h
    · obtain rfl := Value.isEmpty_iff.mp h
      cases s <;> rfl
    · obtain rfl := Value.isEmpty_iff.mp h
      cases d <;> rfl
  simp [ValueProxy.assign, hc]

theorem assign_ok_num_length {t : NumTag} {xs : List ℚ} {s v : Value}
    (h : ValueProxy.assign (Value.num t xs) s = ConvResult.ok v) :
    ∃ ys, v = Value.num t ys ∧ ys.length = xs.length := by
  by_cases hemp : s.isEmpty = true
  · rw [assign_empty (Or.inr hemp)] at h
    cases h
    exact ⟨xs, rfl, rfl⟩
  · have hs : s.isEmpty = false := Bool.not_eq_true _ ▸ hemp
    have hconv := do_convert_num t xs s hs
    unfold ValueProxy.assign at h
    rw [hconv] at h
    by_cases hlen : xs.length ≠ s.asArray.length
    · simp [hlen] at h
    · simp only [hlen, if_false] at h
      by_cases htag : (Value.num t xs).optionTag = s.optionTag
      · simp only [htag, if_true] at h
        cases h
        cases s with
        | num ts ys =>
          have hts : t = ts := by simpa [Value.optionTag] using htag
          subst hts
          refine ⟨ys, rfl, ?_⟩
          have hel := not_not.mp hlen
          simpa [Value.asArray] using hel.symm
        | empty => simp [Value.isEmpty] at hs
        | string b => simp [Value.optionTag] at htag
        | unstructured b => simp [Value.optionTag] at htag
      · simp only [htag, if_false] at h
        rw [if_pos (by simp [Value.optionTag])] at h
        cases h
        refine ⟨specConvert t s.asArray, rfl, ?_⟩
        rw [specConvert_length]
        exact (not_not.mp hlen).symm

/-! ### Claim C2 -/

/-- C2: for every pair of numeric-variant Values, `assign` succeeds iff
the source and destination array lengths are equal, failing with
`ConversionError` on any length mismatch regardless of the scalar
families; on success the conversion is element-wise (`specConvert`): a
bit destination receives the nonzero test, a real destination the float
cast, and an integer/natural destination round-half-to-even followed by
the machine cast. -/
theorem assign_numeric_iff_length (t s : NumTag) (xs ys : List ℚ) :
    ((∃ v, ValueProxy.assign (Value.num t xs) (Value.num s ys) = ConvResult.ok v) ↔
      xs.length = ys.length) ∧
    (xs.length ≠ ys.length →
      ValueProxy.assign (Value.num t xs) (Value.num s ys) = ConvResult.conversionError) ∧
    (xs.length = ys.length → (∀ y ∈ ys, scalarWF s y = true) →
      ValueProxy.assign (Value.num t xs) (Value.num s ys) =
        ConvResult.ok (Value.num t (specConvert t ys))) := by
  have ha := assign_num_num t s xs ys
  refine ⟨⟨?_, ?_⟩, ?_, ?_⟩
  · rintro ⟨v, hv⟩
    by_contra hne
    rw [ha, if_pos hne] at hv
    cases hv
  · intro hlen
    rw [ha, if_neg (not_not_intro hlen)]
    by_cases hts : t = s
    · exact ⟨_, by rw [if_pos hts]⟩
    · exact ⟨_, by rw [if_neg hts]⟩
  · intro hlen
    rw [ha, if_pos hlen]
  · intro hlen hwf
    rw [ha, if_neg (not_not_intro hlen)]
    by_cases hts : t = s
    · subst hts
      rw [if_pos rfl, specConvert_wf hwf]
    · rw [if_neg hts]

/-- Witness for C2 at the spec's worked example: assigning
real64 [3.3, 6.4] into an integer8 destination of length two succeeds
and yields [3, 6]. -/
theorem assign_numeric_iff_length_witness :
    ValueProxy.assign (Value.num .integer8 [0, 1])
        (Value.num .real64 [mkRat 33 10, mkRat 32 5]) =
      ConvResult.ok (Value.num .integer8 (specConvert .integer8 [mkRat 33 10, mkRat 32 5])) ∧
    specConvert .integer8 [mkRat 33 10, mkRat 32 5] = [3, 6] :=
  ⟨(assign_numeric_iff_length .integer8 .real64 [0, 1] [mkRat 33 10, mkRat 32 5]).2.2
      (by decide) (by decide),
   by decide⟩

/-! ### Claim C3 -/

/-- C3: whenever `assign` succeeds, the resulting value carries the
destination's variant tag; a numeric destination also keeps its array
length; and if either the destination or the source is the empty
variant, `assign` succeeds leaving the destination unmodified. -/
theorem assign_preserves_destination (d s : Value) :
    (∀ v, ValueProxy.assign d s = ConvResult.ok v → v.optionTag = d.optionTag) ∧
    (∀ t xs v, d = Value.num t xs → ValueProxy.assign d s = ConvResult.ok v →
      ∃ ys, v = Value.num t ys ∧ ys.length = xs.length) ∧
    ((d.isEmpty = true ∨ s.isEmpty = true) → ValueProxy.assign d s = ConvResult.ok d) := by
  refine ⟨fun v h => assign_ok_optionTag h, ?_, assign_empty⟩
  rintro t xs v rfl h
  exact assign_ok_num_length h

/-- Witness for C3: a bit destination keeps its tag under an integer32
source, and an empty source leaves the destination unchanged. -/
theorem assign_preserves_destination_witness :
    (Value.num .bit [1, 0]).optionTag = (Value.num .bit [0, 0]).optionTag ∧
    ValueProxy.assign (Value.num .bit [0, 0]) Value.empty =
      ConvResult.ok (Value.num .bit [0, 0]) :=
  ⟨(assign_preserves_destination (Value.num .bit [0, 0]) (Value.num .integer32 [-1, 0])).1
      (Value.num .bit [1, 0]) (by decide),
   (assign_preserves_destination (Value.num .bit [0, 0]) Value.empty).2.2 (Or.inr rfl)⟩

/-! ### Claims C1 and C4: the `assert False` fall-through is reachable -/

/-- C1 (code-bug evaluation): `Repository.access` does raise. With a
mutable string register of length two and a bit request of the same
length, `_do_convert` passes the dimensionality guard, matches no
conversion branch, and hits its `assert False`; the `AssertionError` is
not a `ValueError`, so the `except ValueError` inside `access` does not
catch it and it escapes, contradicting the claim and the method's own
docstring ("No exceptions are raised"). -/
theorem access_raises_assertionError :
    Repository.access ⟨[Backend.sqlite true [([115], ⟨Value.string [97, 98], true⟩)]]⟩ [115]
        (Value.num .bit [1, 0]) =
      AccessResult.assertionError := by decide

/-- C4 (code-bug evaluation): on the same input, `Repository.set` raises
`AssertionError` instead of the `ValueConversionError` documented in its
docstring, and instead of the `ConversionError` the claim requires. -/
theorem set_raises_assertionError :
    Repository.set ⟨[Backend.sqlite true [([115], ⟨Value.string [97, 98], true⟩)]]⟩ [115]
        (Value.num .bit [1, 0]) =
      SetResult.assertionError := by decide

/-! ### First-owner and deletion lemmas for the backend chain -/

theorem getFirst_append : ∀ (pre l : List Backend) (n : Name),
    (∀ b ∈ pre, b.get n = none) → getFirst (pre ++ l) n = getFirst l n := by
  intro pre
  induction pre with
  | nil => intro l n _; rfl
  | cons x xs ih =>
    intro l n h
    have hx : x.get n = none := h x (List.mem_cons_self x xs)
    simp only [List.cons_append, getFirst, hx]
    exact ih l n (fun b hb => h b (List.mem_cons_of_mem x hb))

theorem setFirst_append : ∀ (pre : List Backend) (b : Backend) (post : List Backend)
    (n : Name) (v : Value) (e : Entry),
    (∀ x ∈ pre, x.get n = none) → b.get n = some e →
    setFirst (pre ++ b :: post) n v =
      (match ValueProxy.assign e.value v with
       | .ok c => SetResult.ok (pre ++ b.set n c :: post)
       | .conversionError => SetResult.conversionError
       | .assertionError => SetResult.assertionError) := by
  intro pre
  induction pre with
  | nil =>
    intro b post n v e _ he
    simp only [List.nil_append, setFirst, he]
  | cons x xs ih =>
    intro b post n v e hpre he
    have hx : x.get n = none := hpre x (List.mem_cons_self x xs)
    have ih2 := ih b post n v e (fun y hy => hpre y (List.mem_cons_of_mem x hy)) he
    simp only [List.cons_append, setFirst, hx, List.append_eq, ih2]
    cases ValueProxy.assign e.value v <;> rfl

theorem accessFirst_skip : ∀ (pre l : List Backend) (n : Name) (v : Value),
    (∀ x ∈ pre, x.get n = none) →
    accessFirst (pre ++ l) n v =
      (match accessFirst l n v with
       | .ok bs2 out => AccessResult.ok (pre ++ bs2) out
       | w => w) := by
  intro pre
  induction pre with
  | nil =>
    intro l n v _
    simp only [List.nil_append]
    cases accessFirst l n v <;> rfl
  | cons x xs ih =>
    intro l n v h
    have hx : x.get n = none := h x (List.mem_cons_self x xs)
    have ih2 := ih l n v (fun y hy => h y (List.mem_cons_of_mem x hy))
    simp only [List.cons_append, accessFirst, hx, List.append_eq, ih2]
    cases accessFirst l n v <;> rfl

theorem accessFirst_cons_found {b : Backend} {post : List Backend} {n : Name} {v : Value}
    {e : Entry} (he : b.get n = some e) :
    accessFirst (b :: post) n v =
      (if e.mutable && !v.isEmpty then
        match ValueProxy.assign e.value v with
        | .conversionError => AccessResult.ok (b :: post) ⟨e.value, e.mutable, b.persistent⟩
        | .assertionError => AccessResult.assertionError
        | .ok c =>
          match (b.set n c).get n with
          | some e2 => AccessResult.ok (b.set n c :: post) ⟨e2.value, e2.mutable, b.persistent⟩
          | none => AccessResult.attributeError
      else AccessResult.ok (b :: post) ⟨e.value, e.mutable, b.persistent⟩) := by
  simp only [accessFirst, he]

theorem delAssoc_cons (k : Name) (w : α) (rest : List (Name × α)) (ns : List Name) :
    delAssoc ((k, w) :: rest) ns =
      if k ∈ ns then delAssoc rest ns else (k, w) :: delAssoc rest ns := by
  by_cases hk : k ∈ ns <;> simp [delAssoc, List.filter_cons, hk]

theorem lookupName_delAssoc (l : List (Name × α)) (ns : List Name) (m : Name) :
    lookupName (delAssoc l ns) m = if m ∈ ns then none else lookupName l m := by
  induction l with
  | nil => simp [delAssoc, lookupName]
  | cons p rest ih =>
    obtain ⟨k, w⟩ := p
    rw [delAssoc_cons]
    by_cases hk : k ∈ ns
    · rw [if_pos hk, ih]
      by_cases hmns : m ∈ ns
      · simp [hmns]
      · have hkm : k ≠ m := fun h => hmns (h ▸ hk)
        simp [hmns, lookupName, hkm]
    · rw [if_neg hk]
      by_cases hkm : k = m
      · subst hkm
        simp [lookupName, hk]
      · simp [lookupName, hkm, ih]

theorem lookupName_eq_none_of_not_mem {l : List (Name × α)} {m : Name}
    (h : m ∉ l.map Prod.fst) : lookupName l m = none := by
  induction l with
  | nil => rfl
  | cons p rest ih =>
    obtain ⟨k, w⟩ := p
    simp only [List.map_cons, List.mem_cons] at h
    push_neg at h
    have hk : k ≠ m := fun hh => h.1 hh.symm
    simp [lookupName, hk, ih h.2]

theorem mem_sortNames {m : Name} {l : List Name} : m ∈ sortNames l ↔ m ∈ l :=
  (List.perm_insertionSort nameLeP l).mem_iff

theorem Backend.get_none_of_not_mem_names {b : Backend} {m : Name} (h : m ∉ b.names) :
    b.get m = none := by
  cases b with
  | sqlite p rows =>
    exact lookupName_eq_none_of_not_mem (by simpa [Backend.names] using h)
  | dynamic regs =>
    simp [Backend.get, lookupName_eq_none_of_not_mem (by simpa [Backend.names] using h)]

theorem Backend.delete_get (b : Backend) (ns : List Name) (m : Name) :
    (b.delete ns).get m = if m ∈ ns then none else b.get m := by
  cases b with
  | sqlite p rows =>
    simp only [Backend.delete, Backend.get, lookupName_delAssoc]
  | dynamic regs =>
    simp only [Backend.delete, Backend.get, lookupName_delAssoc]
    by_cases hm : m ∈ ns <;> simp [hm]

theorem delete_matching_get (b : Backend) (w m : Name) :
    (b.delete (b.keys.filter (fun k => fnmatchcase k w))).get m =
      if fnmatchcase m w = true then none else b.get m := by
  rw [Backend.delete_get]
  by_cases hmem2 : m ∈ b.keys.filter (fun k => fnmatchcase k w)
  · rw [if_pos hmem2, if_pos ((List.mem_filter.mp hmem2).2)]
  · rw [if_neg hmem2]
    by_cases hmatch : fnmatchcase m w = true
    · rw [if_pos hmatch]
      have hmem : m ∉ b.names := fun hn =>
        hmem2 (List.mem_filter.mpr ⟨mem_sortNames.mpr hn, hmatch⟩)
      exact Backend.get_none_of_not_mem_names hmem
    · rw [if_neg hmatch]

/-! ### Claim C5 -/

/-- C5: with an ordered chain `pre ++ b :: post` whose first owner of the
name is `b` (every backend in `pre` lacks it, later owners in `post`
allowed), `get` returns `b`'s entry, a successful `set` replaces only `b`
and keeps `pre`/`post` untouched, a successful `access` likewise changes
at most `b`, while `delete` applies the case-sensitive glob independently
to every backend's key set and removes the matches from every backend
that has them. -/
theorem first_owner_semantics (pre : List Backend) (b : Backend) (post : List Backend)
    (n : Name) (v : Value) (e : Entry)
    (hpre : ∀ x ∈ pre, x.get n = none) (he : b.get n = some e) :
    (Repository.get ⟨pre ++ b :: post⟩ n = some e.value) ∧
    (∀ bs2, Repository.set ⟨pre ++ b :: post⟩ n v = SetResult.ok bs2 →
      ∃ c, ValueProxy.assign e.value v = ConvResult.ok c ∧ bs2 = pre ++ b.set n c :: post) ∧
    (∀ bs2 out, Repository.access ⟨pre ++ b :: post⟩ n v = AccessResult.ok bs2 out →
      ∃ b2, bs2 = pre ++ b2 :: post ∧
        (b2 = b ∨ ∃ c, ValueProxy.assign e.value v = ConvResult.ok c ∧ b2 = b.set n c)) ∧
    (∀ (r : Repository) (w : Name),
      (Repository.delete r w).backends =
        r.backends.map (fun x => x.delete (x.keys.filter (fun k => fnmatchcase k w)))) ∧
    (∀ (x : Backend) (w m : Name),
      (x.delete (x.keys.filter (fun k => fnmatchcase k w))).get m =
        if fnmatchcase m w = true then none else x.get m) := by
  refine ⟨?_, ?_, ?_, fun _ _ => rfl, fun x w m => delete_matching_get x w m⟩
  · show (getFirst (pre ++ b :: post) n).map Entry.value = some e.value
    rw [getFirst_append pre (b :: post) n hpre]
    simp [getFirst, he]
  · intro bs2 hset
    have h := setFirst_append pre b post n v e hpre he
    rw [Repository.set] at hset
    rw [h] at hset
    cases hc : ValueProxy.assign e.value v with
    | ok c =>
      rw [hc] at hset
      cases hset
      exact ⟨c, rfl, rfl⟩
    | conversionError => rw [hc] at hset; cases hset
    | assertionError => rw [hc] at hset; cases hset
  · intro bs2 out hacc
    rw [Repository.access, accessFirst_skip pre (b :: post) n v hpre] at hacc
    cases hA : accessFirst (b :: post) n v with
    | ok bs3 out3 =>
      rw [hA] at hacc
      injection hacc with h1 h2
      subst h1
      rw [accessFirst_cons_found he] at hA
      by_cases hm : (e.mutable && !v.isEmpty) = true
      · rw [if_pos hm] at hA
        cases hc : ValueProxy.assign e.value v with
        | ok c =>
          rw [hc] at hA
          have hA2 : (match (b.set n c).get n with
              | some e2 => AccessResult.ok (b.set n c :: post)
                  ⟨e2.value, e2.mutable, b.persistent⟩
              | none => AccessResult.attributeError) = AccessResult.ok bs3 out3 := hA
          cases hre : (b.set n c).get n with
          | some e2 =>
            rw [hre] at hA2
            cases hA2
            exact ⟨b.set n c, rfl, Or.inr ⟨c, rfl, rfl⟩⟩
          | none => rw [hre] at hA2; cases hA2
        | conversionError =>
          rw [hc] at hA
          cases hA
          exact ⟨b, rfl, Or.inl rfl⟩
        | assertionError => rw [hc] at hA; cases hA
      · rw [if_neg hm] at hA
        cases hA
        exact ⟨b, rfl, Or.inl rfl⟩
    | assertionError => rw [hA] at hacc; cases hacc
    | attributeError => rw [hA] at hacc; cases hacc

/-- Witness for C5: a two-backend chain where both backends define the
register `x` (code point 120). `get` observes the first backend's copy,
and deleting with the wildcard `x` also empties the second backend. -/
theorem first_owner_semantics_witness :
    Repository.get
        ⟨[Backend.sqlite true [([120], ⟨Value.num .bit [1], true⟩)],
          Backend.dynamic [([120], ⟨Value.num .bit [0], true⟩)]]⟩ [120] =
      some (Value.num .bit [1]) ∧
    ((Backend.dynamic [([120], ⟨Value.num .bit [0], true⟩)]).delete
        ((Backend.dynamic [([120], ⟨Value.num .bit [0], true⟩)]).keys.filter
          (fun k => fnmatchcase k [120]))).get [120] = none := by
  have h := first_owner_semantics [] (Backend.sqlite true [([120], ⟨Value.num .bit [1], true⟩)])
    [Backend.dynamic [([120], ⟨Value.num .bit [0], true⟩)]] [120] Value.empty
    ⟨Value.num .bit [1], true⟩ (by intro x hx; cases hx) rfl
  refine ⟨h.1, ?_⟩
  rw [h.2.2.2.2 (Backend.dynamic [([120], ⟨Value.num .bit [0], true⟩)]) [120] [120]]
  decide

/-! ### Claim C6 -/

/-- C6 counterexample: with a single backend holding the one register
`a` (code point 97), `get_name_at_index (-1)` returns that key instead of
`None`, although -1 is not a position of the one-element key list —
`self.keys()[index]` follows Python list indexing, where a negative index
counts from the end and only raises once it passes the front. -/
theorem get_name_at_index_neg_counterexample :
    Repository.get_name_at_index ⟨[Backend.sqlite false [([97], ⟨Value.empty, true⟩)]]⟩ (-1) =
      some [97] ∧
    (Repository.keys ⟨[Backend.sqlite false [([97], ⟨Value.empty, true⟩)]]⟩).length = 1 := by
  decide

/-- C6 (amended): `keys` is the concatenation, in bind order, of each
backend's own lexicographically sorted key list without global
re-sorting; `get_name_at_index i` is `keys[i]` for `0 ≤ i < length` and
`None` for `i ≥ length`; a negative index follows Python list indexing
(`-length ≤ i < 0` counts from the end, `i < -length` gives `None`). -/
theorem keys_concatenation_and_index (r : Repository) :
    (Repository.keys r = (r.backends.map Backend.keys).flatten) ∧
    (∀ b ∈ r.backends, List.Sorted nameLeP (Backend.keys b) ∧ (Backend.keys b).Perm b.names) ∧
    (∀ i : ℤ, 0 ≤ i → Repository.get_name_at_index r i = (Repository.keys r).get? i.toNat) ∧
    (∀ i : ℤ, i < 0 → -((Repository.keys r).length : ℤ) ≤ i →
      Repository.get_name_at_index r i =
        (Repository.keys r).get? (((Repository.keys r).length : ℤ) + i).toNat) ∧
    (∀ i : ℤ, i < -((Repository.keys r).length : ℤ) →
      Repository.get_name_at_index r i = none) := by
  refine ⟨rfl, ?_, ?_, ?_, ?_⟩
  · intro b _
    exact ⟨List.sorted_insertionSort nameLeP b.names, List.perm_insertionSort nameLeP b.names⟩
  · intro i hi
    simp only [Repository.get_name_at_index, pyGetItem]
    rw [if_pos hi]
  · intro i hneg hge
    simp only [Repository.get_name_at_index, pyGetItem]
    rw [if_neg (not_le.mpr hneg), if_pos (by linarith)]
  · intro i hlt
    have hlen : (0 : ℤ) ≤ ((Repository.keys r).length : ℤ) := Int.ofNat_nonneg _
    simp only [Repository.get_name_at_index, pyGetItem]
    rw [if_neg (by linarith), if_neg (by linarith)]

/-- Witness for C6 (amended) on a two-backend repository with keys
`a`, `c` from the first backend and `b` from the second: index 0 is in
range, index 3 is out of range, and index -1 counts from the end. -/
theorem keys_concatenation_and_index_witness :
    Repository.get_name_at_index
        ⟨[Backend.sqlite false [([99], ⟨Value.empty, true⟩), ([97], ⟨Value.empty, true⟩)],
          Backend.dynamic [([98], ⟨Value.empty, false⟩)]]⟩ 0 = some [97] ∧
    Repository.get_name_at_index
        ⟨[Backend.sqlite false [([99], ⟨Value.empty, true⟩), ([97], ⟨Value.empty, true⟩)],
          Backend.dynamic [([98], ⟨Value.empty, false⟩)]]⟩ 3 = none ∧
    Repository.get_name_at_index
        ⟨[Backend.sqlite false [([99], ⟨Value.empty, true⟩), ([97], ⟨Value.empty, true⟩)],
          Backend.dynamic [([98], ⟨Value.empty, false⟩)]]⟩ (-1) = some [98] := by
  have h := keys_concatenation_and_index
    ⟨[Backend.sqlite false [([99], ⟨Value.empty, true⟩), ([97], ⟨Value.empty, true⟩)],
      Backend.dynamic [([98], ⟨Value.empty, false⟩)]]⟩
  refine ⟨?_, ?_, ?_⟩
  · rw [h.2.2.1 0 (by decide)]
    decide
  · rw [h.2.2.1 3 (by decide)]
    decide
  · rw [h.2.2.2.1 (-1) (by decide) (by decide)]
    decide

/-! ### Claim C7 -/

/-- C7: `_strictify` classifies native inputs: a bare bool becomes a
one-element bit array, a bare non-negative int a natural64 singleton, a
negative int an integer64 singleton, a float a real64 singleton; a
string becomes the string variant and bytes the unstructured variant; an
empty sequence the empty Value; a homogeneous bool sequence a bit array;
a float-free mixed bool/int sequence natural64 when all elements are
non-negative and integer64 otherwise; and any sequence containing a
float a real64 array. (Machine-range hypotheses make the stored elements
equal the inputs; out-of-range elements would wrap in the constructor
cast.) -/
theorem strictify_classification :
    (∀ b : Bool, _strictify (.scalar (.bool b)) = Value.num .bit [if b then 1 else 0]) ∧
    (∀ i : ℤ, 0 ≤ i → i < 2 ^ 64 →
      _strictify (.scalar (.int i)) = Value.num .natural64 [(i : ℚ)]) ∧
    (∀ i : ℤ, i < 0 → -(2 ^ 63) ≤ i →
      _strictify (.scalar (.int i)) = Value.num .integer64 [(i : ℚ)]) ∧
    (∀ q : ℚ, _strictify (.scalar (.float q)) = Value.num .real64 [q]) ∧
    (∀ b : Bytes, _strictify (.str b) = Value.string b) ∧
    (∀ b : Bytes, _strictify (.bytes b) = Value.unstructured b) ∧
    (_strictify (.seq []) = Value.empty) ∧
    (∀ xs, xs ≠ [] → (∀ x ∈ xs, x.isBool = true) →
      _strictify (.seq xs) = Value.num .bit (xs.map PyScalar.toQ)) ∧
    (∀ xs, xs ≠ [] → (∀ x ∈ xs, x.isFloat = false) → ¬(∀ x ∈ xs, x.isBool = true) →
      (∀ x ∈ xs, 0 ≤ x.toQ) → (∀ x ∈ xs, scalarWF .natural64 x.toQ = true) →
      _strictify (.seq xs) = Value.num .natural64 (xs.map PyScalar.toQ)) ∧
    (∀ xs, xs ≠ [] → (∀ x ∈ xs, x.isFloat = false) → ¬(∀ x ∈ xs, 0 ≤ x.toQ) →
      (∀ x ∈ xs, scalarWF .integer64 x.toQ = true) →
      _strictify (.seq xs) = Value.num .integer64 (xs.map PyScalar.toQ)) ∧
    (∀ xs, (∃ x ∈ xs, x.isFloat = true) →
      _strictify (.seq xs) = Value.num .real64 (xs.map PyScalar.toQ)) := by
  have hisEmpty : ∀ (xs : List PyScalar), xs ≠ [] → xs.isEmpty = false := by
    intro xs hne
    cases xs with
    | nil => exact absurd rfl hne
    | cons a l => rfl
  refine ⟨?_, ?_, ?_, ?_, fun b => rfl, fun b => rfl, rfl, ?_, ?_, ?_, ?_⟩
  · intro b
    cases b <;> decide
  · intro i h0 hlt
    have hwf : scalarWF .natural64 ((i : ℤ) : ℚ) = true := by
      simp only [scalarWF, Bool.and_eq_true, beq_iff_eq, decide_eq_true_iff,
        Rat.num_intCast, Rat.den_intCast]
      exact ⟨⟨trivial, h0⟩, hlt⟩
    show strictifySeq [PyScalar.int i] = _
    rw [strictifySeq, if_neg (by simp), if_neg (by simp [PyScalar.isBool]),
      if_pos (by simp [PyScalar.isFloat]),
      if_pos (by simp only [List.all_cons, List.all_nil, Bool.and_true, decide_eq_true_iff,
        PyScalar.toQ]; exact_mod_cast h0)]
    simp only [mkNum, List.map_cons, List.map_nil, PyScalar.toQ]
    rw [castScalar_wf hwf]
  · intro i hneg hge
    have hwf : scalarWF .integer64 ((i : ℤ) : ℚ) = true := by
      simp only [scalarWF, Bool.and_eq_true, beq_iff_eq, decide_eq_true_iff,
        Rat.num_intCast, Rat.den_intCast]
      exact ⟨⟨trivial, hge⟩, lt_of_lt_of_le hneg (by positivity)⟩
    show strictifySeq [PyScalar.int i] = _
    rw [strictifySeq, if_neg (by simp), if_neg (by simp [PyScalar.isBool]),
      if_pos (by simp [PyScalar.isFloat]),
      if_neg (by simp only [List.all_cons, List.all_nil, Bool.and_true, decide_eq_true_iff,
        PyScalar.toQ]; exact_mod_cast not_le.mpr hneg)]
    simp only [mkNum, List.map_cons, List.map_nil, PyScalar.toQ]
    rw [castScalar_wf hwf]
  · intro q
    rfl
  · intro xs hne hbool
    show strictifySeq xs = _
    rw [strictifySeq, if_neg (by simp [hisEmpty xs hne]), if_pos (List.all_eq_true.mpr hbool)]
    simp only [mkNum, List.map_map]
    refine congrArg _ (List.map_congr_left fun x hx => ?_)
    cases x with
    | bool b => cases b <;> decide
    | int i => simpa [PyScalar.isBool] using hbool _ hx
    | float q => simpa [PyScalar.isBool] using hbool _ hx
  · intro xs hne hnf hnb h0 hwf
    show strictifySeq xs = _
    rw [strictifySeq, if_neg (by simp [hisEmpty xs hne]),
      if_neg (fun hc => hnb (List.all_eq_true.mp hc)),
      if_pos (List.all_eq_true.mpr fun x hx => by simp [hnf x hx]),
      if_pos (List.all_eq_true.mpr fun x hx => decide_eq_true (h0 x hx))]
    simp only [mkNum, List.map_map]
    exact congrArg _ (List.map_congr_left fun x hx => castScalar_wf (hwf x hx))
  · intro xs hne hnf hn0 hwf
    have hnb : ¬(xs.all PyScalar.isBool = true) := by
      intro hc
      apply hn0
      intro x hx
      have hbx := List.all_eq_true.mp hc x hx
      cases x with
      | bool b => cases b <;> simp [PyScalar.toQ]
      | int i => simp [PyScalar.isBool] at hbx
      | float q => simp [PyScalar.isBool] at hbx
    show strictifySeq xs = _
    rw [strictifySeq, if_neg (by simp [hisEmpty xs hne]), if_neg hnb,
      if_pos (List.all_eq_true.mpr fun x hx => by simp [hnf x hx]),
      if_neg (fun hc => hn0 fun x hx => of_decide_eq_true (List.all_eq_true.mp hc x hx))]
    simp only [mkNum, List.map_map]
    exact congrArg _ (List.map_congr_left fun x hx => castScalar_wf (hwf x hx))
  · rintro xs ⟨x0, hx0, hfl⟩
    have hne : xs ≠ [] := by
      intro hc
      subst hc
      cases hx0
    show strictifySeq xs = _
    rw [strictifySeq, if_neg (by simp [hisEmpty xs hne]),
      if_neg (fun hc => by
        have hb := List.all_eq_true.mp hc x0 hx0
        cases x0 <;> simp_all [PyScalar.isBool, PyScalar.isFloat]),
      if_neg (fun hc => by
        have hb := List.all_eq_true.mp hc x0 hx0
        cases x0 <;> simp_all [PyScalar.isFloat])]
    simp only [mkNum, List.map_map]
    exact congrArg _ (List.map_congr_left fun x hx => rfl)

/-- Witness for C7: a bare non-negative int becomes a natural64
singleton, and the mixed sequence [True, 2] becomes natural64 [1, 2]. -/
theorem strictify_classification_witness :
    _strictify (.scalar (.int 5)) = Value.num .natural64 [(5 : ℚ)] ∧
    _strictify (.seq [PyScalar.bool true, PyScalar.int 2]) = Value.num .natural64 [1, 2] := by
  have h := strictify_classification
  constructor
  · exact h.2.1 5 (by decide) (by decide)
  · have hj := h.2.2.2.2.2.2.2.2.1 [PyScalar.bool true, PyScalar.int 2]
      (by decide) (by decide) (by decide) (by decide) (by decide)
    rw [hj]
    decide

/-! ### Claim C8 -/

/-- C8: a dynamic-backend register reports `mutable = (setter present)`
on `get`; when it has no setter, `set` is a silent no-op that changes
nothing and raises nothing; and `access` on such a register (when it is
the first owner) with any non-empty requested value returns the
unchanged stored value with `mutable = false`, leaving every backend
unchanged. -/
theorem dynamic_getter_only (regs : List (Name × DynReg)) (n : Name) (r : DynReg)
    (rest : List Backend) (v req : Value) (hr : lookupName regs n = some r) :
    ((Backend.dynamic regs).get n = some ⟨r.value, r.hasSetter⟩) ∧
    (r.hasSetter = false → (Backend.dynamic regs).set n v = Backend.dynamic regs) ∧
    (r.hasSetter = false → req.isEmpty = false →
      Repository.access ⟨Backend.dynamic regs :: rest⟩ n req =
        AccessResult.ok (Backend.dynamic regs :: rest) ⟨r.value, false, false⟩) := by
  refine ⟨by simp [Backend.get, hr], ?_, ?_⟩
  · intro hset
    simp [Backend.set, hr, hset]
  · intro hset _
    have hget : (Backend.dynamic regs).get n = some ⟨r.value, false⟩ := by
      simp [Backend.get, hr, hset]
    rw [Repository.access]
    rw [accessFirst_cons_found hget]
    simp [Backend.persistent]

/-- Witness for C8: a getter-only register `b` (code point 98) holding
bit [0]; a write request of bit [1] is ignored and the response reports
the stored value with `mutable = false`. -/
theorem dynamic_getter_only_witness :
    Repository.access ⟨[Backend.dynamic [([98], ⟨Value.num .bit [0], false⟩)]]⟩ [98]
        (Value.num .bit [1]) =
      AccessResult.ok [Backend.dynamic [([98], ⟨Value.num .bit [0], false⟩)]]
        ⟨Value.num .bit [0], false, false⟩ :=
  (dynamic_getter_only [([98], ⟨Value.num .bit [0], false⟩)] [98] ⟨Value.num .bit [0], false⟩
    [] Value.empty (Value.num .bit [1]) (by decide)).2.2 rfl rfl

/-! ### Claim C9 -/

/-- C9 counterexample: a register whose setter raises (payload 7). The
`setter(value)` call in `DynamicBackend.set` is not inside any try
block, so the exception leaves `set` raw rather than wrapped in
`BackendError`, refuting the claim for setters. -/
theorem setter_exception_escapes_raw :
    DynamicBackend.set [([98], ⟨Except.ok Value.empty, some (fun _ => Except.error 7)⟩)]
        [98] Value.empty = Except.error (PyErr.raw 7) ∧
    (∀ e : Exc, PyErr.raw 7 ≠ PyErr.backendError e) := by
  refine ⟨rfl, fun e h => ?_⟩
  cases h

/-- C9 (amended): an exception raised inside a getter is wrapped in
`BackendError` and surfaces to the caller of `get` — `get` can never
surface a raw exception — while an exception raised inside a setter
propagates to the caller of `set` unwrapped. -/
theorem dynamic_backend_exception_wrapping (regs : List (Name × DynRegF)) (n : Name)
    (v : Value) (ex : Exc) :
    (∀ res, DynamicBackend.get regs n = Except.error res → ∃ e2, res = PyErr.backendError e2) ∧
    (∀ r, lookupName regs n = some r → r.getter = Except.error ex →
      DynamicBackend.get regs n = Except.error (PyErr.backendError ex)) ∧
    (∀ r f, lookupName regs n = some r → r.setter = some f → f v = Except.error ex →
      DynamicBackend.set regs n v = Except.error (PyErr.raw ex)) := by
  refine ⟨?_, ?_, ?_⟩
  · intro res hres
    rw [DynamicBackend.get] at hres
    cases hl : lookupName regs n with
    | none => simp [hl] at hres
    | some r =>
      simp only [hl] at hres
      cases hg : r.getter with
      | error e2 =>
        simp only [hg] at hres
        exact ⟨e2, (Except.error.inj hres).symm⟩
      | ok w => simp [hg] at hres
  · intro r hl hg
    simp only [DynamicBackend.get, hl, hg]
  · intro r f hl hf hfv
    simp only [DynamicBackend.set, hl, hf, hfv]

/-- Witness for C9 (amended): a register whose getter raises payload 3
makes `get` surface `BackendError 3`; a register whose setter raises
payload 7 makes `set` surface the raw exception 7. -/
theorem dynamic_backend_exception_wrapping_witness :
    DynamicBackend.get [([97], ⟨Except.error 3, none⟩)] [97] =
      Except.error (PyErr.backendError 3) ∧
    DynamicBackend.set [([98], ⟨Except.ok Value.empty, some (fun _ => Except.error 7)⟩)]
        [98] Value.empty = Except.error (PyErr.raw 7) :=
  ⟨(dynamic_backend_exception_wrapping [([97], ⟨Except.error 3, none⟩)] [97] Value.empty 3).2.1
      ⟨Except.error 3, none⟩ rfl rfl,
   (dynamic_backend_exception_wrapping
      [([98], ⟨Except.ok Value.empty, some (fun _ => Except.error 7)⟩)] [98] Value.empty 7).2.2
      ⟨Except.ok Value.empty, some (fun _ => Except.error 7)⟩ (fun _ => Except.error 7) rfl rfl
      rfl⟩

/-! ### Claim C10 -/

theorem Heap.read_append {h : Heap} {a : Addr} (ext : Heap) (ha : a < h.length) :
    (h ++ ext).read a = h.read a := by
  show (h ++ ext).get? a = h.get? a
  rw [List.get?_eq_getElem?, List.get?_eq_getElem?]
  exact List.getElem?_append_left ha

theorem assignObj_heap_extends (h : Heap) (p : ProxyObj) (v : Value) :
    ∃ ext, (ValueProxy.assignObj h p v).1 = h ++ ext := by
  rw [ValueProxy.assignObj]
  cases ValueProxy.assign ((h.read p.valueAddr).getD Value.empty) v with
  | ok res => exact ⟨[res], rfl⟩
  | conversionError => exact ⟨[], (List.append_nil h).symm⟩
  | assertionError => exact ⟨[], (List.append_nil h).symm⟩

theorem assignAll_heap_extends : ∀ (srcs : List Value) (h : Heap) (p : ProxyObj),
    ∃ ext, (ValueProxy.assignAll h p srcs).1 = h ++ ext := by
  intro srcs
  induction srcs with
  | nil => exact fun h p => ⟨[], (List.append_nil h).symm⟩
  | cons v vs ih =>
    intro h p
    obtain ⟨ext1, hext1⟩ := assignObj_heap_extends h p v
    obtain ⟨ext2, hext2⟩ := ih (ValueProxy.assignObj h p v).1 (ValueProxy.assignObj h p v).2.1
    refine ⟨ext1 ++ ext2, ?_⟩
    show (ValueProxy.assignAll (ValueProxy.assignObj h p v).1
      (ValueProxy.assignObj h p v).2.1 vs).1 = h ++ (ext1 ++ ext2)
    rw [hext2, hext1, List.append_assoc]

/-- C10: constructing a `ValueProxy` over a heap cell copies the value
into a fresh cell, and every subsequent `assign` only allocates and
rebinds the proxy's `_value` reference, so after any sequence of assigns
the caller's original cell still holds its original value. -/
theorem proxy_preserves_original (h : Heap) (msg : Addr) (v0 : Value) (srcs : List Value)
    (hv : h.read msg = some v0) :
    ((ValueProxy.assignAll (ValueProxy.init h msg).1 (ValueProxy.init h msg).2 srcs).1).read
      msg = some v0 := by
  have hlt : msg < h.length := by
    rw [Heap.read] at hv
    exact (List.get?_eq_some.mp hv).1
  have hinit : (ValueProxy.init h msg).1 = h ++ [(h.read msg).getD Value.empty] := rfl
  obtain ⟨ext, hext⟩ := assignAll_heap_extends srcs (ValueProxy.init h msg).1
    (ValueProxy.init h msg).2
  rw [hext, hinit, List.append_assoc]
  rw [Heap.read_append _ hlt]
  exact hv

/-- Witness for C10: a one-cell heap holding bit [1]; after constructing
a proxy on it and assigning bit [0], the original cell still reads
bit [1]. -/
theorem proxy_preserves_original_witness :
    ((ValueProxy.assignAll (ValueProxy.init [Value.num .bit [1]] 0).1
        (ValueProxy.init [Value.num .bit [1]] 0).2 [Value.num .bit [0]]).1).read 0 =
      some (Value.num .bit [1]) :=
  proxy_preserves_original [Value.num .bit [1]] 0 (Value.num .bit [1]) [Value.num .bit [0]] rfl

end PyReg
